import Mathlib

/-!  Verification of the excel2javascript core: a shallow embedding of
`src/excel2javascript.py` (formula translator, cell extractor, cycle
breaker and dependency sequencer), with theorems checking the
specification's claims against it.

Modelling conventions:

* Python strings are `List Char` internally (character classes are the
  ASCII fragments actually exercised by the program).
* Python `dict`/`defaultdict` are association lists in insertion order;
  Python `set` iteration order is carried explicitly by the embedding as
  a list order, so universally quantified theorems range over every
  possible set order.
* A raised exception (`ValueError` from `openpyxl` utilities or from
  `resolve_and_sort`) is `none` / an error constructor.
* Recursive Python functions are embedded with an explicit fuel
  argument, structurally recursive, so every definition computes by
  `rfl`/`decide`; the wrappers supply fuel that is large enough for
  every actual run (theorems that need it prove fuel sufficiency).
-/

namespace Excel2JS

/-- ASCII decimal digit, Python regex `\d` (ASCII fragment). -/
def isDigitC (c : Char) : Bool := '0' ≤ c && c ≤ '9'

/-- ASCII word character, Python regex `\w` (ASCII fragment). -/
def isWordC (c : Char) : Bool := c.isAlpha || isDigitC c || c = '_'

/-- Uppercase ASCII letter, Python regex `[A-Z]`. -/
def isUpperC (c : Char) : Bool := 'A' ≤ c && c ≤ 'Z'

/-- Greedy maximal run of characters satisfying `p` (regex `p+`/`p*`):
returns the run and the remaining suffix. -/
def matchRun (p : Char → Bool) : List Char → List Char × List Char
  | [] => ([], [])
  | c :: cs =>
    if p c then ((c :: (matchRun p cs).1, (matchRun p cs).2))
    else ([], c :: cs)

/-- Value of a digit string, Python `int(...)` on a `\d+` group. -/
def natOfDigits (ds : List Char) : Nat :=
  ds.foldl (fun a c => a * 10 + (c.toNat - 48)) 0

/-- Attempt to match `(\d+),(\d+)%` at the head of the string
(line 25 of the source).  Returns the two digit groups and the rest
after the match.  Greedy `\d+` needs no backtracking here because a
shortened digit run is still followed by a digit, never by `,`/`%`. -/
def tryMatch1 (s : List Char) : Option (List Char × List Char × List Char) :=
  let m1 := matchRun isDigitC s
  if m1.1 = [] then none else
  match m1.2 with
  | [] => none
  | c :: r2 =>
    if c = ',' then
      let m2 := matchRun isDigitC r2
      if m2.1 = [] then none else
      match m2.2 with
      | [] => none
      | c2 :: r4 => if c2 = '%' then some (m1.1, m2.1, r4) else none
    else none

/-- Models CPython `str(i + f/100.0)` for the comma-percent replacement
(line 25), rendered as the exact decimal with at most two fractional
digits and a trailing `.0` for whole values.  This coincides with
CPython's shortest round-trip float `repr` only for small operands
(such as `10.05`, the value the theorems below evaluate); the rounding
and exponent notation of doubles beyond about `2^53` are not
modelled, and no theorem below depends on this function at such
magnitudes. -/
def pyFloatRepr (i f : Nat) : List Char :=
  let v := 100 * i + f
  let whole := Nat.repr (v / 100)
  if v % 100 = 0 then (whole ++ ".0").data
  else if v % 10 = 0 then (whole ++ "." ++ Nat.repr (v / 10 % 10)).data
  else (whole ++ "." ++ Nat.repr (v % 100 / 10) ++ Nat.repr (v % 10)).data

/-- Replacement text of the comma-percent rule:
`str(int(g1) + int(g2)/100.0) + "/100"`.  The `OverflowError` CPython
raises when a digit group exceeds the double range (about
`1.8·10^308`) is not modelled: this function covers the executions
whose groups convert to float, and no theorem below asserts anything
about inputs reaching the overflow path. -/
def repl1 (d1 d2 : List Char) : List Char :=
  pyFloatRepr (natOfDigits d1) (natOfDigits d2) ++ "/100".data

/-- Models `re.sub(r"(\d+),(\d+)%", ..., s)`: leftmost non-overlapping matches,
scanning resumes after each replacement (replacements not rescanned). -/
def sub1F : Nat → List Char → List Char
  | 0, s => s
  | f + 1, s =>
    match s with
    | [] => []
    | c :: cs =>
      match tryMatch1 (c :: cs) with
      | some (d1, d2, rest) => repl1 d1 d2 ++ sub1F f rest
      | none => c :: sub1F f cs

/-- Attempt to match `(\d+)%` at the head (line 28 of the source). -/
def tryMatch2 (s : List Char) : Option (List Char × List Char) :=
  let m1 := matchRun isDigitC s
  if m1.1 = [] then none else
  match m1.2 with
  | [] => none
  | c :: r2 => if c = '%' then some (m1.1, r2) else none

/-- Replacement text of the plain-percent rule: `str(int(g1)) + "/100"`. -/
def repl2 (d1 : List Char) : List Char :=
  (Nat.repr (natOfDigits d1)).data ++ "/100".data

/-- Models `re.sub(r"(\d+)%", ..., s)`. -/
def sub2F : Nat → List Char → List Char
  | 0, s => s
  | f + 1, s =>
    match s with
    | [] => []
    | c :: cs =>
      match tryMatch2 (c :: cs) with
      | some (d1, rest) => repl2 d1 ++ sub2F f rest
      | none => c :: sub2F f cs

/-- Models `openpyxl.utils.get_column_letter` digit loop: repeated
`divmod(col_idx, 26)` with the zero remainder patched to 26. -/
def getColLetterAux : Nat → Nat → List Char → List Char
  | 0, _, acc => acc
  | f + 1, n, acc =>
    if n = 0 then acc
    else
      let q := n / 26
      let r := n % 26
      if r = 0 then getColLetterAux f (q - 1) (Char.ofNat (26 + 64) :: acc)
      else getColLetterAux f q (Char.ofNat (r + 64) :: acc)

/-- Models `openpyxl.utils.get_column_letter`: raises (`none`) outside
`1 ≤ idx ≤ 18278`, otherwise the base-26 letter string. -/
def get_column_letter (n : Nat) : Option (List Char) :=
  if 1 ≤ n ∧ n ≤ 18278 then some (getColLetterAux n n []) else none

/-- Column value of one letter after `upper()`, `none` if not a letter. -/
def colCharVal (c : Char) : Option Nat :=
  let u := c.toUpper
  if 'A' ≤ u ∧ u ≤ 'Z' then some (u.toNat - 64) else none

/-- Models `openpyxl.utils.column_index_from_string`: valid exactly for 1–3
letter strings (case folded), i.e. the keys of openpyxl's cache of the
columns `A` … `ZZZ`; anything else raises (`none`). -/
def column_index_from_string (s : List Char) : Option Nat :=
  if s.length = 0 ∨ 3 < s.length then none
  else s.foldlM (fun acc c => (colCharVal c).map fun v => acc * 26 + v) 0

/-- Attempt to match `SUM\((\w+):(\w+)\)` at the head (line 32).
Returns both groups and the rest.  `\w+` cannot span `:`/`)`, so the
greedy maximal run is exact. -/
def trySumMatch (s : List Char) : Option (List Char × List Char × List Char) :=
  match s with
  | a :: b :: c :: d :: r0 =>
    if a = 'S' ∧ b = 'U' ∧ c = 'M' ∧ d = '(' then
      let m1 := matchRun isWordC r0
      if m1.1 = [] then none else
      match m1.2 with
      | [] => none
      | e :: r2 =>
        if e = ':' then
          let m2 := matchRun isWordC r2
          if m2.1 = [] then none else
          match m2.2 with
          | [] => none
          | f :: r4 => if f = ')' then some (m1.1, m2.1, r4) else none
        else none
    else none
  | _ => none

/-- Models `'+'.join(...)` over the expanded terms. -/
def joinPlus : List (List Char) → List Char
  | [] => []
  | [t] => t
  | t :: ts => t ++ '+' :: joinPlus ts

/-- The replacement lambda of the range-sum rule (lines 33–36):
`'+'.join(get_column_letter(cifs(g1[:1]) + i) + g1[1:] for i in
range(cifs(g2[:1]) - cifs(g1[:1]) + 1))`.  `none` models the
`ValueError` that `column_index_from_string`/`get_column_letter` raise
on invalid arguments. -/
def sumRepl (w1 w2 : List Char) : Option (List Char) :=
  match column_index_from_string (w2.take 1), column_index_from_string (w1.take 1) with
  | some c2, some c1 =>
    let count := (Int.ofNat c2 - Int.ofNat c1 + 1).toNat
    ((List.range count).mapM fun i =>
        (get_column_letter (c1 + i)).map fun l => l ++ w1.drop 1).map joinPlus
  | _, _ => none

/-- Models `re.sub(r"SUM\((\w+):(\w+)\)", ..., s)`; `none` when the
replacement lambda raises. -/
def sumSubF : Nat → List Char → Option (List Char)
  | 0, s => some s
  | f + 1, s =>
    match s with
    | [] => some []
    | c :: cs =>
      match trySumMatch (c :: cs) with
      | some (w1, w2, rest) =>
        match sumRepl w1 w2 with
        | none => none
        | some repl => (sumSubF f rest).map fun t => repl ++ t
      | none => (sumSubF f cs).map fun t => c :: t

/-- Python `str.replace(pat, repl)`: leftmost non-overlapping literal
substitution, left to right. -/
def replF (pat repl : List Char) : Nat → List Char → List Char
  | 0, s => s
  | f + 1, s =>
    match s with
    | [] => []
    | c :: cs =>
      if pat.isPrefixOf (c :: cs) then repl ++ replF pat repl f ((c :: cs).drop pat.length)
      else c :: replF pat repl f cs

/-- Attempt to match `(\d+),(\d+)` at the head (line 44). -/
def tryMatch5 (s : List Char) : Option (List Char × List Char × List Char) :=
  let m1 := matchRun isDigitC s
  if m1.1 = [] then none else
  match m1.2 with
  | [] => none
  | c :: r2 =>
    if c = ',' then
      let m2 := matchRun isDigitC r2
      if m2.1 = [] then none else some (m1.1, m2.1, m2.2)
    else none

/-- Models `re.sub(r"(\d+),(\d+)", r"\1.\2", s)`. -/
def sub5F : Nat → List Char → List Char
  | 0, s => s
  | f + 1, s =>
    match s with
    | [] => []
    | c :: cs =>
      match tryMatch5 (c :: cs) with
      | some (d1, d2, rest) => d1 ++ '.' :: d2 ++ sub5F f rest
      | none => c :: sub5F f cs

/-- Models `convert_to_js` (lines 11–49) on the character list: the six
transformations in source order; `none` models a propagated
`ValueError` from the range-sum replacement lambda. -/
def convertCore (s : List Char) : Option (List Char) :=
  let s1 := sub1F (s.length + 1) s
  let s2 := sub2F (s1.length + 1) s1
  match sumSubF (s2.length + 1) s2 with
  | none => none
  | some s3 =>
    let s4 := replF "MIN".data "Math.min".data (s3.length + 1) s3
    let s5 := replF "MAX".data "Math.max".data (s4.length + 1) s4
    let s6 := sub5F (s5.length + 1) s5
    some (s6.filter fun c => !(c == '$'))

/-- Models `convert_to_js` on strings. -/
def convert_to_js (s : String) : Option String :=
  (convertCore s.data).map String.mk

/-! ## Dependency graph -/

/-- Models `dependency_graph`: association list in insertion order; the value
list is the iteration order of the Python `set` of references. -/
abbrev Graph := List (String × List String)

/-- Models `graph.get(v, [])` / iteration of `graph[v]`. -/
def adj (g : Graph) (v : String) : List String := (g.lookup v).getD []

def graphKeys (g : Graph) : List String := g.map Prod.fst

def graphVals (g : Graph) : List String := (g.map Prod.snd).flatten

/-- Python `dict` assignment: overwrite the first binding or append. -/
def assocSet {β : Type} : List (String × β) → String → β → List (String × β)
  | [], k, v => [(k, v)]
  | (a, b) :: t, k, v =>
    if a == k then (a, v) :: t else (a, b) :: assocSet t k v

/-- Models `dependency_graph[k].add(v)`: dedup-append to the set list. -/
def graphAdd (g : Graph) (k v : String) : Graph :=
  match g.lookup k with
  | some vs => assocSet g k (if v ∈ vs then vs else vs ++ [v])
  | none => g ++ [(k, [v])]

/-! ## Cycle breaker (`detect_and_break_cycles`, lines 193–227) -/

inductive Color | white | gray | black
deriving DecidableEq, Repr

/-- DFS vertex states, default white (`defaultdict(lambda: WHITE)`). -/
abbrev States := List (String × Color)

def getColor (st : States) (v : String) : Color := (st.lookup v).getD .white

def setColor (st : States) (v : String) (c : Color) : States := assocSet st v c

abbrev EdgeL := List (String × String)

/-- Models `cycle_edges.add(e)` (a Python set: dedup insertion). -/
def insertEdge (ce : EdgeL) (e : String × String) : EdgeL :=
  if e ∈ ce then ce else ce ++ [e]

/-- The `for neighbor in graph[vertex]` loop body of `dfs`: white
neighbors are recursed into (a `True` answer schedules the edge for
removal and the loop continues); a gray neighbor schedules the edge and
returns `True` immediately (the vertex stays gray); black neighbors are
skipped.  When the loop completes the vertex turns black and `dfs`
returns `False`. -/
def dfsLoop (rec : String → States → EdgeL → Option (States × EdgeL × Bool))
    (vertex : String) : List String → States → EdgeL → Option (States × EdgeL × Bool)
  | [], st, ce => some (setColor st vertex .black, ce, false)
  | n :: ns, st, ce =>
    match getColor st n with
    | .white =>
      match rec n st ce with
      | none => none
      | some (st2, ce2, true) => dfsLoop rec vertex ns st2 (insertEdge ce2 (vertex, n))
      | some (st2, ce2, false) => dfsLoop rec vertex ns st2 ce2
    | .gray => some (st, insertEdge ce (vertex, n), true)
    | .black => dfsLoop rec vertex ns st ce

/-- The recursive `dfs` of `detect_and_break_cycles`, with fuel
(`none` = fuel exhausted; the supplied fuel makes this unreachable).
The `defaultdict` key creation that `graph[vertex]` performs on a
missing key only adds empty adjacency sets, which are observationally
absent (`adj` already defaults to `[]`), so it is not modelled. -/
def dfs (g : Graph) : Nat → String → States → EdgeL → Option (States × EdgeL × Bool)
  | 0, _, _, _ => none
  | fuel + 1, v, st, ce =>
    dfsLoop (fun n s c => dfs g fuel n s c) v (adj g v) (setColor st v .gray) ce

/-- Fuel bound for the traversal: more than the number of vertex
occurrences in the graph. -/
def detectFuel (g : Graph) : Nat := (graphKeys g).length + (graphVals g).length + 1

/-- Models `for vertex in list(graph.keys()): if white: dfs(vertex, [])`. -/
def dfsAll (g : Graph) : List String → States → EdgeL → States × EdgeL
  | [], st, ce => (st, ce)
  | v :: vs, st, ce =>
    match getColor st v with
    | .white =>
      match dfs g (detectFuel g) v st ce with
      | none => (st, ce)
      | some (st2, ce2, _) => dfsAll g vs st2 ce2
    | _ => dfsAll g vs st ce

/-- Models `graph[e.1].remove(e.2)` on the first binding of `e.1`. -/
def eraseEdge : Graph → String × String → Graph
  | [], _ => []
  | (k, vs) :: t, e =>
    if k == e.1 then (k, vs.erase e.2) :: t else (k, vs) :: eraseEdge t e

/-- Models `detect_and_break_cycles` (lines 193–227): collect the cycle edges
by DFS from every key, then delete them from the graph. -/
def detect_and_break_cycles (g : Graph) : Graph :=
  let ce := (dfsAll g (graphKeys g) [] []).2
  ce.foldl eraseEdge g

/-! ## Sequencer (`resolve_and_sort`, lines 150–190) -/

/-- The mutable state of `resolve_and_sort`: `resolved`, `unresolved`
(the recursion stack, as sets) and the output list `sorted_nodes`. -/
structure RSt where
  resolved : List String
  unresolved : List String
  sorted : List String
deriving DecidableEq, Repr

/-- The `for dep in graph.get(node, [])` loop of `resolve`: stops and
propagates the first `False`. -/
def resolveLoop (rec : String → RSt → Option (Bool × RSt)) :
    List String → RSt → Option (Bool × RSt)
  | [], st => some (true, st)
  | d :: ds, st =>
    match rec d st with
    | none => none
    | some (false, st2) => some (false, st2)
    | some (true, st2) => resolveLoop rec ds st2

/-- The recursive `resolve` closure (lines 172–184), with fuel
(`none` = fuel exhausted, unreachable for the supplied fuel):
a resolved node answers `True`; a node on the stack answers `False`
(cycle); otherwise push, resolve the dependencies, then mark resolved,
pop, and append to `sorted_nodes`. -/
def resolve (g : Graph) : Nat → String → RSt → Option (Bool × RSt)
  | 0, _, _ => none
  | fuel + 1, node, st =>
    if node ∈ st.resolved then some (true, st)
    else if node ∈ st.unresolved then some (false, st)
    else
      let st1 : RSt := ⟨st.resolved, node :: st.unresolved, st.sorted⟩
      match resolveLoop (fun d s => resolve g fuel d s) (adj g node) st1 with
      | none => none
      | some (false, st2) => some (false, st2)
      | some (true, st2) =>
        some (true, ⟨node :: st2.resolved, st2.unresolved.erase node,
          st2.sorted ++ [node]⟩)

/-- Result of `resolve_and_sort`: the sorted order, or the raised
`ValueError` ("The graph has a cycle…"), or fuel exhaustion
(unreachable for the supplied fuel). -/
inductive SeqResult
  | ok (order : List String)
  | valueError
  | fuelOut
deriving DecidableEq, Repr

/-- Models `for node in all_cells: if not resolve(node): raise ValueError`. -/
def resolveCells (g : Graph) (fuel : Nat) : List String → RSt → SeqResult
  | [], st => .ok st.sorted
  | c :: cs, st =>
    match resolve g fuel c st with
    | none => .fuelOut
    | some (false, _) => .valueError
    | some (true, st2) => resolveCells g fuel cs st2

/-- Fuel bound: more than the number of vertices that can ever be on
the recursion stack. -/
def seqFuel (g : Graph) (cells : List String) : Nat :=
  cells.length + (graphVals g).length + 1

/-- Models `resolve_and_sort(graph, all_cells)` (lines 150–190); `cells` is
the key iteration order of `all_cells`. -/
def resolve_and_sort (g : Graph) (cells : List String) : SeqResult :=
  resolveCells g (seqFuel g cells) cells ⟨[], [], []⟩

/-- Lines 247–250 of `convert_excel_to_js`: break cycles, then
sequence with `resolve_and_sort`. -/
def break_then_sort (g : Graph) (cells : List String) : SeqResult :=
  resolve_and_sort (detect_and_break_cycles g) cells

/-! ## Cell extractor (`extract_and_convert_all_cells`, lines 52–94) -/

/-- Raw content of one sheet cell: numeric (modelled as an integer —
the claims under check do not depend on float literal formatting),
a string, or empty. -/
inductive CellV
  | num (n : Int)
  | str (s : String)
  | blank
deriving DecidableEq, Repr

/-- The extractor's accumulated state: `all_cells`, `dependency_graph`,
`original_formulas` and the `defined_cells` set (kept as a field so
the specification can talk about cells "defined by a sheet cell"). -/
structure ExOut where
  cells : List (String × String)
  graph : Graph
  formulas : List (String × String)
  defined : List String
deriving DecidableEq, Repr

/-- Append-if-new (Python set insertion in first-insertion order). -/
def insertNew (l : List String) (x : String) : List String :=
  if x ∈ l then l else l ++ [x]

/-- First-occurrence dedup of a list (a Python set built by iterated
insertion, in first-insertion order). -/
def dedupFirst (l : List String) : List String := l.foldl insertNew []

/-- Attempt to match `[A-Z]+\$?\d+` at the head (line 83).  A shortened
`[A-Z]+` run is still followed by a letter, so the greedy maximal run
needs no backtracking. -/
def tryRef (s : List Char) : Option (List Char × List Char) :=
  let m1 := matchRun isUpperC s
  if m1.1 = [] then none else
  match m1.2 with
  | [] => none
  | c :: r2 =>
    if c = '$' then
      let m2 := matchRun isDigitC r2
      if m2.1 = [] then none else some (m1.1 ++ '$' :: m2.1, m2.2)
    else
      let m2 := matchRun isDigitC m1.2
      if m2.1 = [] then none else some (m1.1 ++ m2.1, m2.2)

/-- Models `re.findall(r'[A-Z]+\$?\d+', formula)`. -/
def findRefsF : Nat → List Char → List (List Char)
  | 0, _ => []
  | f + 1, s =>
    match s with
    | [] => []
    | c :: cs =>
      match tryRef (c :: cs) with
      | some (tok, rest) => tok :: findRefsF f rest
      | none => findRefsF f cs

def findRefs (s : List Char) : List (List Char) := findRefsF (s.length + 1) s

/-- One iteration of the extractor's cell loop (lines 70–86); `none`
models a propagated exception (`get_column_letter` out of range, or
`convert_to_js` raising). -/
def processCell (acc : ExOut) : Nat × Nat × CellV → Option ExOut
  | (row, col, cv) =>
    match get_column_letter col with
    | none => none
    | some colL =>
      let ref := String.mk colL ++ Nat.repr row
      match cv with
      | .num n =>
        some { acc with
          cells := assocSet acc.cells ref s!"var {ref} = {n};"
          defined := insertNew acc.defined ref }
      | .str s =>
        match s.data with
        | [] => some acc
        | c0 :: _ =>
          if c0 = '=' then
            let formula := s.drop 1
            match convert_to_js formula with
            | none => none
            | some js =>
              let refs := (findRefs formula.data).map fun tok =>
                String.mk (tok.filter fun c => !(c == '$'))
              some { acc with
                cells := assocSet acc.cells ref s!"var {ref} = {js};"
                defined := insertNew acc.defined ref
                formulas := assocSet acc.formulas ref s
                graph := refs.foldl (fun gr vr => graphAdd gr ref vr) acc.graph }
          else some acc
      | .blank => some acc

/-- Row-major 1-indexed enumeration of the sheet
(`enumerate(sheet.iter_rows(), start=1)` and the inner `enumerate`). -/
def enumSheet (sheet : List (List CellV)) : List (Nat × Nat × CellV) :=
  ((List.range sheet.length).zip sheet).flatMap fun rc =>
    ((List.range rc.2.length).zip rc.2).map fun cc =>
      (rc.1 + 1, cc.1 + 1, cc.2)

/-- The extractor's main pass (lines 70–86), before the zero-default
fill-in. -/
def extractRaw (sheet : List (List CellV)) : Option ExOut :=
  (enumSheet sheet).foldlM processCell ⟨[], [], [], []⟩

/-- Lines 88–92: every variable referenced anywhere but never defined
gets a `var v = 0;` declaration.  The Python set iteration order is
modelled as first-insertion order. -/
def zeroFill (e : ExOut) : ExOut :=
  let allVars := dedupFirst (e.cells.map Prod.fst ++ graphVals e.graph)
  let undef := allVars.filter fun v => !(e.defined.contains v)
  { e with cells := e.cells ++ undef.map fun v => (v, s!"var {v} = 0;") }

/-- Models `extract_and_convert_all_cells` (lines 52–94). -/
def extract_and_convert_all_cells (sheet : List (List CellV)) : Option ExOut :=
  (extractRaw sheet).map zeroFill

/-! ## Derived definitions used by the specification statements -/

/-- The column letter character for a column index `1 ≤ k ≤ 26`. -/
def colChar (k : Nat) : Char := Char.ofNat (64 + k)

/-- A same-row range-sum formula `SUM(<col1><row>:<col2><row>)`
(columns given by index, the row by its digit characters). -/
def sumCallData (c1 c2 : Nat) (ds : List Char) : List Char :=
  'S' :: 'U' :: 'M' :: '(' :: colChar c1 :: (ds ++ ':' :: colChar c2 :: (ds ++ [')']))

def sumCallStr (c1 c2 : Nat) (ds : List Char) : String :=
  String.mk (sumCallData c1 c2 ds)

/-- Specification-side expansion of a range sum (§4.1 step 3, §8):
every individual cell reference from the first column to the second
inclusive, left to right by increasing column index, joined with `+`. -/
def sumChainSpec (c1 c2 : Nat) (ds : List Char) : List Char :=
  joinPlus ((List.range' c1 (c2 + 1 - c1)).map fun k => colChar k :: ds)

/-- No two adjacent uppercase characters (used to show that the
`MIN`/`MAX` renaming cannot fire inside an expanded range sum). -/
def noTwoUpper : List Char → Bool
  | a :: b :: t => (!(isUpperC a && isUpperC b)) && noTwoUpper (b :: t)
  | _ => true

/-- The loop invariant of `resolve_and_sort`: the stack and output are
duplicate-free, `sorted_nodes` enumerates exactly the resolved nodes,
the stack is disjoint from the resolved set, and the emitted prefix is
topologically consistent (every dependency of an emitted node is
emitted earlier). -/
structure SeqInv (g : Graph) (st : RSt) : Prop where
  unres_nodup : st.unresolved.Nodup
  disj : ∀ x ∈ st.resolved, x ∉ st.unresolved
  sorted_nodup : st.sorted.Nodup
  mem_iff : ∀ x, x ∈ st.sorted ↔ x ∈ st.resolved
  topo : ∀ a ∈ st.sorted, ∀ b ∈ adj g a,
    b ∈ st.sorted ∧ st.sorted.indexOf b < st.sorted.indexOf a

/-- Basic guarantees of one `resolve` step (used to propagate facts
through the dependency loop): the resolved set grows, a `True` answer
means the node ended up resolved, `sorted_nodes` only grows at the
end, and "sorted enumerates resolved" is preserved. -/
def StepOK (r : String → RSt → Option (Bool × RSt)) : Prop :=
  ∀ node st b st2, r node st = some (b, st2) →
    (∀ x ∈ st.resolved, x ∈ st2.resolved) ∧
    (b = true → node ∈ st2.resolved) ∧
    (∃ δ, st2.sorted = st.sorted ++ δ) ∧
    ((∀ x, x ∈ st.sorted ↔ x ∈ st.resolved) →
      ∀ x, x ∈ st2.sorted ↔ x ∈ st2.resolved)

/-! ## Scanner lemmas -/

theorem matchRun_append (p : Char → Bool) : ∀ s : List Char,
    (matchRun p s).1 ++ (matchRun p s).2 = s
  | [] => rfl
  | c :: cs => by
    by_cases h : p c <;> simp [matchRun, h, matchRun_append p cs]

theorem matchRun_exact (p : Char → Bool) :
    ∀ (a b : List Char), (∀ c ∈ a, p c = true) →
      (∀ c cs, b = c :: cs → p c = false) →
      matchRun p (a ++ b) = (a, b)
  | [], b, _, hb => by
    cases b with
    | nil => rfl
    | cons c cs => simp [matchRun, hb c cs rfl]
  | x :: a, b, ha, hb => by
    have hx : p x = true := ha x (by simp)
    simp [matchRun, hx, matchRun_exact p a b (fun c hc => ha c (by simp [hc])) hb]

theorem tryMatch1_comma_percent {t : List Char} {x} (h : tryMatch1 t = some x) :
    ',' ∈ t ∧ '%' ∈ t := by
  have hsplit := matchRun_append isDigitC t
  simp only [tryMatch1] at h
  split at h
  · simp at h
  · split at h
    · simp at h
    next c r2 hm =>
      rw [hm] at hsplit
      split at h
      next hc =>
        subst hc
        have hsplit2 := matchRun_append isDigitC r2
        split at h
        · simp at h
        · split at h
          · simp at h
          next c2 r4 hm2 =>
            rw [hm2] at hsplit2
            split at h
            next hc2 =>
              subst hc2
              constructor
              · rw [← hsplit]; simp
              · rw [← hsplit, ← hsplit2]; simp
            next => simp at h
      next => simp at h

theorem tryMatch2_percent {t : List Char} {x} (h : tryMatch2 t = some x) :
    '%' ∈ t := by
  have hsplit := matchRun_append isDigitC t
  simp only [tryMatch2] at h
  split at h
  · simp at h
  · split at h
    · simp at h
    next c r2 hm =>
      rw [hm] at hsplit
      split at h
      next hc => subst hc; rw [← hsplit]; simp
      next => simp at h

theorem tryMatch5_comma {t : List Char} {x} (h : tryMatch5 t = some x) :
    ',' ∈ t := by
  have hsplit := matchRun_append isDigitC t
  simp only [tryMatch5] at h
  split at h
  · simp at h
  · split at h
    · simp at h
    next c r2 hm =>
      rw [hm] at hsplit
      split at h
      next hc =>
        subst hc
        split at h
        · simp at h
        · rw [← hsplit]; simp
      next => simp at h

/-! ## Identity of the rewriting passes in the absence of matches -/

theorem sub1F_id : ∀ (f : Nat) (s : List Char),
    (∀ t, t <:+ s → tryMatch1 t = none) → sub1F f s = s
  | 0, _, _ => rfl
  | _ + 1, [], _ => rfl
  | f + 1, c :: cs, h => by
    simp only [sub1F, h (c :: cs) (List.suffix_refl _)]
    exact congrArg _ (sub1F_id f cs fun t ht => h t (ht.trans (List.suffix_cons c cs)))

theorem sub2F_id : ∀ (f : Nat) (s : List Char),
    (∀ t, t <:+ s → tryMatch2 t = none) → sub2F f s = s
  | 0, _, _ => rfl
  | _ + 1, [], _ => rfl
  | f + 1, c :: cs, h => by
    simp only [sub2F, h (c :: cs) (List.suffix_refl _)]
    exact congrArg _ (sub2F_id f cs fun t ht => h t (ht.trans (List.suffix_cons c cs)))

theorem sub5F_id : ∀ (f : Nat) (s : List Char),
    (∀ t, t <:+ s → tryMatch5 t = none) → sub5F f s = s
  | 0, _, _ => rfl
  | _ + 1, [], _ => rfl
  | f + 1, c :: cs, h => by
    simp only [sub5F, h (c :: cs) (List.suffix_refl _)]
    exact congrArg _ (sub5F_id f cs fun t ht => h t (ht.trans (List.suffix_cons c cs)))

theorem sumSubF_id : ∀ (f : Nat) (s : List Char),
    (∀ t, t <:+ s → trySumMatch t = none) → sumSubF f s = some s
  | 0, _, _ => rfl
  | _ + 1, [], _ => rfl
  | f + 1, c :: cs, h => by
    simp only [sumSubF, h (c :: cs) (List.suffix_refl _)]
    rw [sumSubF_id f cs fun t ht => h t (ht.trans (List.suffix_cons c cs))]
    rfl

theorem replF_id (pat repl : List Char) : ∀ (f : Nat) (s : List Char),
    (∀ t, t <:+ s → pat.isPrefixOf t = false) → replF pat repl f s = s
  | 0, _, _ => rfl
  | _ + 1, [], _ => rfl
  | f + 1, c :: cs, h => by
    simp only [replF, h (c :: cs) (List.suffix_refl _)]
    simp only [Bool.false_eq_true, if_false]
    exact congrArg _ (replF_id pat repl f cs fun t ht => h t (ht.trans (List.suffix_cons c cs)))

theorem no_tryMatch1_of_no_percent {s : List Char} (h : '%' ∉ s) :
    ∀ t, t <:+ s → tryMatch1 t = none := by
  intro t ht
  cases hm : tryMatch1 t with
  | none => rfl
  | some x => exact absurd (ht.subset (tryMatch1_comma_percent hm).2) h

theorem no_tryMatch2_of_no_percent {s : List Char} (h : '%' ∉ s) :
    ∀ t, t <:+ s → tryMatch2 t = none := by
  intro t ht
  cases hm : tryMatch2 t with
  | none => rfl
  | some x => exact absurd (ht.subset (tryMatch2_percent hm)) h

theorem no_tryMatch5_of_no_comma {s : List Char} (h : ',' ∉ s) :
    ∀ t, t <:+ s → tryMatch5 t = none := by
  intro t ht
  cases hm : tryMatch5 t with
  | none => rfl
  | some x => exact absurd (ht.subset (tryMatch5_comma hm)) h

/-! ## Character facts -/

theorem isDigitC_word {c : Char} (h : isDigitC c = true) : isWordC c = true := by
  simp [isWordC, h]

theorem isDigitC_not_upper {c : Char} (h : isDigitC c = true) : isUpperC c = false := by
  simp only [isDigitC, Bool.and_eq_true, decide_eq_true_eq] at h
  have hlt : c < 'A' := lt_of_le_of_lt h.2 (by decide)
  simp [isUpperC, not_le.mpr hlt]

theorem isDigitC_ne {c x : Char} (h : isDigitC c = true) (hx : isDigitC x = false) :
    c ≠ x := by
  intro he
  rw [he, hx] at h
  cases h

theorem colChar_valid : ∀ k, k < 27 → 1 ≤ k →
    isUpperC (colChar k) = true ∧ isWordC (colChar k) = true ∧
    isDigitC (colChar k) = false ∧ colChar k ≠ '%' ∧ colChar k ≠ ',' ∧
    colChar k ≠ '$' ∧ colChar k ≠ '+' := by decide

theorem cifs_colChar : ∀ k, k < 27 → 1 ≤ k →
    column_index_from_string [colChar k] = some k := by decide

theorem gcl_small : ∀ k, k < 27 → 1 ≤ k →
    get_column_letter k = some [colChar k] := by decide

/-! ## Adjacent-uppercase facts for the expanded range sum -/

theorem noTwoUpper_tail {c : Char} {cs : List Char}
    (h : noTwoUpper (c :: cs) = true) : noTwoUpper cs = true := by
  cases cs with
  | nil => rfl
  | cons b t =>
    simp only [noTwoUpper, Bool.and_eq_true] at h
    exact h.2

theorem noTwoUpper_suffix {s t : List Char} (hs : noTwoUpper s = true)
    (h : t <:+ s) : noTwoUpper t = true := by
  induction s with
  | nil => rw [List.suffix_nil.mp h]; rfl
  | cons c cs ih =>
    rcases List.suffix_cons_iff.mp h with rfl | h2
    · exact hs
    · exact ih (noTwoUpper_tail hs) h2

theorem noTwoUpper_blocks {s : List Char} (hs : noTwoUpper s = true)
    {p1 p2 : Char} (hp1 : isUpperC p1 = true) (hp2 : isUpperC p2 = true)
    (rest : List Char) :
    ∀ t, t <:+ s → (p1 :: p2 :: rest).isPrefixOf t = false := by
  intro t ht
  cases hb : (p1 :: p2 :: rest).isPrefixOf t with
  | false => rfl
  | true =>
    exfalso
    have hpre : p1 :: p2 :: rest <+: t := List.isPrefixOf_iff_prefix.mp hb
    obtain ⟨t2, rfl⟩ := hpre
    have h2 := noTwoUpper_suffix hs ht
    simp [noTwoUpper, hp1, hp2] at h2

theorem noTwoUpper_cons_false {a : Char} {s : List Char} (ha : isUpperC a = false) :
    noTwoUpper (a :: s) = noTwoUpper s := by
  cases s with
  | nil => rfl
  | cons b t => simp [noTwoUpper, ha]

theorem noTwoUpper_digits_append :
    ∀ (ds : List Char), (∀ c ∈ ds, isDigitC c = true) →
    ∀ (r : List Char), noTwoUpper r = true →
      (∀ c0 cs, r = c0 :: cs → isUpperC c0 = false) →
      noTwoUpper (ds ++ r) = true ∧
        (∀ c0 cs, ds ++ r = c0 :: cs → isUpperC c0 = false)
  | [], _, r, hr, hrh => ⟨hr, hrh⟩
  | d :: ds, hds, r, hr, hrh => by
    obtain ⟨h1, h2⟩ := noTwoUpper_digits_append ds
      (fun c hc => hds c (by simp [hc])) r hr hrh
    have hd : isUpperC d = false := isDigitC_not_upper (hds d (by simp))
    constructor
    · cases hsh : ds ++ r with
      | nil => simp [hsh, noTwoUpper]
      | cons c0 cs =>
        have hc0 := h2 c0 cs hsh
        rw [List.cons_append, hsh]
        simp [noTwoUpper, hc0, hsh ▸ h1]
    · intro c0 cs hcc
      rw [List.cons_append] at hcc
      cases hcc
      exact hd

theorem noTwoUpper_term (x : Char) (ds : List Char)
    (hds : ∀ c ∈ ds, isDigitC c = true) (r : List Char)
    (hr : noTwoUpper r = true)
    (hrh : ∀ c0 cs, r = c0 :: cs → isUpperC c0 = false) :
    noTwoUpper (x :: (ds ++ r)) = true := by
  obtain ⟨h1, h2⟩ := noTwoUpper_digits_append ds hds r hr hrh
  cases hsh : ds ++ r with
  | nil => rfl
  | cons c0 cs =>
    have hc0 := h2 c0 cs hsh
    simp [noTwoUpper, hc0, hsh ▸ h1]

theorem noTwoUpper_chain (ds : List Char)
    (hds : ∀ c ∈ ds, isDigitC c = true) :
    ∀ (ks : List Nat),
      noTwoUpper (joinPlus (ks.map fun k => colChar k :: ds)) = true
  | [] => rfl
  | [k] => by
    simpa [joinPlus] using
      noTwoUpper_term (colChar k) ds hds [] rfl (by intro c0 cs h; cases h)
  | k :: k2 :: ks => by
    have ih := noTwoUpper_chain ds hds (k2 :: ks)
    have hplus : isUpperC '+' = false := by decide
    have hr : noTwoUpper ('+' :: joinPlus ((k2 :: ks).map fun j => colChar j :: ds)) = true := by
      rw [noTwoUpper_cons_false hplus]; exact ih
    have := noTwoUpper_term (colChar k) ds hds
      ('+' :: joinPlus ((k2 :: ks).map fun j => colChar j :: ds)) hr
      (by intro c0 cs h; cases h; exact hplus)
    simpa [joinPlus, List.cons_append, List.append_assoc] using this

theorem joinPlus_chars : ∀ (terms : List (List Char)) (c : Char),
    c ∈ joinPlus terms → c = '+' ∨ ∃ t ∈ terms, c ∈ t
  | [], c, h => by simp [joinPlus] at h
  | [t], c, h => by
    right
    exact ⟨t, by simp, by simpa [joinPlus] using h⟩
  | t :: t2 :: ts, c, h => by
    simp only [joinPlus, List.mem_append, List.mem_cons] at h
    rcases h with h | h | h
    · right; exact ⟨t, by simp, h⟩
    · left; exact h
    · rcases joinPlus_chars (t2 :: ts) c h with h2 | ⟨u, hu, hc⟩
      · left; exact h2
      · right; exact ⟨u, by simp [List.mem_cons.mp hu], hc⟩

theorem chain_mem {c : Char} {ds : List Char} {ks : List Nat}
    (h : c ∈ joinPlus (ks.map fun k => colChar k :: ds)) :
    c = '+' ∨ (∃ k ∈ ks, c = colChar k) ∨ c ∈ ds := by
  rcases joinPlus_chars _ c h with h | ⟨t, ht, hc⟩
  · left; exact h
  · obtain ⟨k, hk, rfl⟩ := List.mem_map.mp ht
    rcases List.mem_cons.mp hc with rfl | hc
    · right; left; exact ⟨k, hk, rfl⟩
    · right; right; exact hc

/-! ## The translated range sum -/

theorem sumCall_mem {c : Char} {c1 c2 : Nat} {ds : List Char}
    (h : c ∈ sumCallData c1 c2 ds) :
    c = 'S' ∨ c = 'U' ∨ c = 'M' ∨ c = '(' ∨ c = ':' ∨ c = ')' ∨
      c = colChar c1 ∨ c = colChar c2 ∨ c ∈ ds := by
  simp only [sumCallData, List.mem_cons, List.mem_append,
    List.not_mem_nil, or_false] at h
  tauto

theorem mapM_option_eq_map {α β : Type} (f : α → Option β) (g : α → β) :
    ∀ l : List α, (∀ x ∈ l, f x = some (g x)) → l.mapM f = some (l.map g)
  | [], _ => rfl
  | x :: l, h => by
    rw [List.mapM_cons, h x (by simp),
      mapM_option_eq_map f g l fun y hy => h y (by simp [hy])]
    rfl

theorem sumSubF_nil : ∀ f, sumSubF f [] = some [] := by
  intro f; cases f <;> rfl

theorem replF_nil (pat repl : List Char) : ∀ f, replF pat repl f [] = [] := by
  intro f; cases f <;> rfl

theorem sub5F_nil : ∀ f, sub5F f [] = [] := by
  intro f; cases f <;> rfl

theorem trySumMatch_sumCall (c1 c2 : Nat) (h1 : 1 ≤ c1) (h1b : c1 ≤ 26)
    (h2 : 1 ≤ c2) (h2b : c2 ≤ 26) (ds : List Char)
    (hds : ∀ c ∈ ds, isDigitC c = true) :
    trySumMatch (sumCallData c1 c2 ds) =
      some (colChar c1 :: ds, colChar c2 :: ds, []) := by
  have hw1 : ∀ c ∈ colChar c1 :: ds, isWordC c = true := by
    intro c hc
    rcases List.mem_cons.mp hc with rfl | hc
    · exact (colChar_valid c1 (by omega) h1).2.1
    · exact isDigitC_word (hds c hc)
  have hw2 : ∀ c ∈ colChar c2 :: ds, isWordC c = true := by
    intro c hc
    rcases List.mem_cons.mp hc with rfl | hc
    · exact (colChar_valid c2 (by omega) h2).2.1
    · exact isDigitC_word (hds c hc)
  have hm1 : matchRun isWordC ((colChar c1 :: ds) ++ ':' :: (colChar c2 :: ds ++ [')'])) =
      (colChar c1 :: ds, ':' :: (colChar c2 :: ds ++ [')'])) := by
    refine matchRun_exact isWordC _ _ hw1 ?_
    intro c cs hcc
    cases hcc
    decide
  have hm2 : matchRun isWordC ((colChar c2 :: ds) ++ [')']) =
      (colChar c2 :: ds, [')']) := by
    refine matchRun_exact isWordC _ _ hw2 ?_
    intro c cs hcc
    cases hcc
    decide
  simp only [List.cons_append, List.append_assoc] at hm1 hm2
  simp only [sumCallData, List.cons_append, List.append_assoc]
  simp [trySumMatch, hm1, hm2]

theorem sumRepl_expand (c1 c2 : Nat) (h1 : 1 ≤ c1) (h12 : c1 ≤ c2) (h26 : c2 ≤ 26)
    (ds : List Char) :
    sumRepl (colChar c1 :: ds) (colChar c2 :: ds) =
      some (joinPlus ((List.range' c1 (c2 + 1 - c1)).map fun k => colChar k :: ds)) := by
  have hc1 : column_index_from_string [colChar c1] = some c1 :=
    cifs_colChar c1 (by omega) h1
  have hc2 : column_index_from_string [colChar c2] = some c2 :=
    cifs_colChar c2 (by omega) (by omega)
  have hmap : (List.range (Int.ofNat c2 - Int.ofNat c1 + 1).toNat).mapM
      (fun i => (get_column_letter (c1 + i)).map fun l => l ++ (colChar c1 :: ds).drop 1) =
      some ((List.range (c2 + 1 - c1)).map fun i => colChar (c1 + i) :: ds) := by
    have hcount : (Int.ofNat c2 - Int.ofNat c1 + 1).toNat = c2 + 1 - c1 := by
      simp only [Int.ofNat_eq_natCast]; omega
    rw [hcount]
    refine mapM_option_eq_map _ _ _ ?_
    intro i hi
    have hi2 : i < c2 + 1 - c1 := List.mem_range.mp hi
    rw [gcl_small (c1 + i) (by omega) (by omega)]
    simp
  simp only [sumRepl, List.take, hc1, hc2, hmap]
  rw [List.range'_eq_map_range, List.map_map]
  rfl

theorem sumRepl_reversed (c1 c2 : Nat) (h1 : 1 ≤ c1) (h1b : c1 ≤ 26)
    (h2 : 1 ≤ c2) (hlt : c2 < c1) (ds : List Char) :
    sumRepl (colChar c1 :: ds) (colChar c2 :: ds) = some [] := by
  have hc1 : column_index_from_string [colChar c1] = some c1 :=
    cifs_colChar c1 (by omega) h1
  have hc2 : column_index_from_string [colChar c2] = some c2 :=
    cifs_colChar c2 (by omega) h2
  have hcount : (Int.ofNat c2 - Int.ofNat c1 + 1).toNat = 0 := by
    simp only [Int.ofNat_eq_natCast]; omega
  simp only [sumRepl, List.take, hc1, hc2, hcount]
  rfl

theorem sumSubF_step (f : Nat) (c : Char) (cs : List Char)
    {w1 w2 rest repl : List Char}
    (hm : trySumMatch (c :: cs) = some (w1, w2, rest))
    (hr : sumRepl w1 w2 = some repl) :
    sumSubF (f + 1) (c :: cs) = (sumSubF f rest).map fun t => repl ++ t := by
  simp [sumSubF, hm, hr]

theorem sumCall_no_percent (c1 c2 : Nat) (h1 : 1 ≤ c1) (h1b : c1 ≤ 26)
    (h2 : 1 ≤ c2) (h2b : c2 ≤ 26) (ds : List Char)
    (hds : ∀ c ∈ ds, isDigitC c = true) : '%' ∉ sumCallData c1 c2 ds := by
  intro hmem
  rcases sumCall_mem hmem with h|h|h|h|h|h|h|h|h
  · exact absurd h (by decide)
  · exact absurd h (by decide)
  · exact absurd h (by decide)
  · exact absurd h (by decide)
  · exact absurd h (by decide)
  · exact absurd h (by decide)
  · exact (colChar_valid c1 (by omega) h1).2.2.2.1 h.symm
  · exact (colChar_valid c2 (by omega) h2).2.2.2.1 h.symm
  · exact absurd (hds _ h) (by decide)

/-- Claim C4 (amended): a same-row range sum over single-letter
columns (indices `1 ≤ c1 ≤ c2 ≤ 26`) expands to the addition chain of
every cell reference from the first column to the second inclusive,
left to right by increasing column index.  Multi-letter columns are
mishandled because the source reads only the first letter of each
reference (see the C4 counterexample). -/
theorem c4_range_sum_expansion (c1 c2 : Nat) (h1 : 1 ≤ c1) (h12 : c1 ≤ c2)
    (h26 : c2 ≤ 26) (ds : List Char) (hds : ∀ c ∈ ds, isDigitC c = true) :
    convert_to_js (sumCallStr c1 c2 ds) = some (String.mk (sumChainSpec c1 c2 ds)) := by
  have h2 : 1 ≤ c2 := by omega
  have h1b : c1 ≤ 26 := by omega
  have hnp := sumCall_no_percent c1 c2 h1 h1b h2 h26 ds hds
  have e1 : sub1F ((sumCallData c1 c2 ds).length + 1) (sumCallData c1 c2 ds) =
      sumCallData c1 c2 ds :=
    sub1F_id _ _ (no_tryMatch1_of_no_percent hnp)
  have e2 : sub2F ((sumCallData c1 c2 ds).length + 1) (sumCallData c1 c2 ds) =
      sumCallData c1 c2 ds :=
    sub2F_id _ _ (no_tryMatch2_of_no_percent hnp)
  have e3 : sumSubF ((sumCallData c1 c2 ds).length + 1) (sumCallData c1 c2 ds) =
      some (sumChainSpec c1 c2 ds) := by
    have hstep := sumSubF_step ((sumCallData c1 c2 ds).length) 'S' _
      (trySumMatch_sumCall c1 c2 h1 h1b h2 h26 ds hds)
      (sumRepl_expand c1 c2 h1 h12 h26 ds)
    rw [sumSubF_nil] at hstep
    have h2step : sumSubF ((sumCallData c1 c2 ds).length + 1) (sumCallData c1 c2 ds) =
        some ((joinPlus ((List.range' c1 (c2 + 1 - c1)).map fun k => colChar k :: ds)) ++ []) :=
      hstep
    rw [List.append_nil] at h2step
    exact h2step
  have hchainU : noTwoUpper (sumChainSpec c1 c2 ds) = true := by
    simpa [sumChainSpec] using noTwoUpper_chain ds hds (List.range' c1 (c2 + 1 - c1))
  have hnc : ',' ∉ sumChainSpec c1 c2 ds := by
    intro hmem
    rcases chain_mem hmem with h | ⟨k, hk, h⟩ | h
    · exact absurd h (by decide)
    · have hkb := List.mem_range'_1.mp hk
      exact (colChar_valid k (by omega) (by omega)).2.2.2.2.1 h.symm
    · exact absurd (hds _ h) (by decide)
  have hnd : '$' ∉ sumChainSpec c1 c2 ds := by
    intro hmem
    rcases chain_mem hmem with h | ⟨k, hk, h⟩ | h
    · exact absurd h (by decide)
    · have hkb := List.mem_range'_1.mp hk
      exact (colChar_valid k (by omega) (by omega)).2.2.2.2.2.1 h.symm
    · exact absurd (hds _ h) (by decide)
  have e4 : replF "MIN".data "Math.min".data ((sumChainSpec c1 c2 ds).length + 1)
      (sumChainSpec c1 c2 ds) = sumChainSpec c1 c2 ds :=
    replF_id _ _ _ _ (noTwoUpper_blocks hchainU (by decide) (by decide) _)
  have e5 : replF "MAX".data "Math.max".data ((sumChainSpec c1 c2 ds).length + 1)
      (sumChainSpec c1 c2 ds) = sumChainSpec c1 c2 ds :=
    replF_id _ _ _ _ (noTwoUpper_blocks hchainU (by decide) (by decide) _)
  have e6 : sub5F ((sumChainSpec c1 c2 ds).length + 1) (sumChainSpec c1 c2 ds) =
      sumChainSpec c1 c2 ds :=
    sub5F_id _ _ (no_tryMatch5_of_no_comma hnc)
  have e7 : (sumChainSpec c1 c2 ds).filter (fun c => !(c == '$')) =
      sumChainSpec c1 c2 ds := by
    refine List.filter_eq_self.mpr ?_
    intro a ha
    have : (a == '$') = false := beq_eq_false_iff_ne.mpr fun he => hnd (he ▸ ha)
    simp [this]
  show (convertCore (sumCallData c1 c2 ds)).map String.mk = _
  rw [convertCore, e1, e2, e3]
  simp only [e4, e5, e6, e7]
  rfl

/-- Claim C8 (amended): a reversed same-row range sum over
single-letter columns (second column index strictly below the first)
expands to zero terms: the whole call is replaced by the empty string.
With multi-letter references the source compares only the first
letters, so a reversed range can instead emit junk terms (see the C8
counterexample). -/
theorem c8_reversed_range_empty (c1 c2 : Nat) (h2 : 1 ≤ c2) (hlt : c2 < c1)
    (h26 : c1 ≤ 26) (ds : List Char) (hds : ∀ c ∈ ds, isDigitC c = true) :
    convert_to_js (sumCallStr c1 c2 ds) = some "" := by
  have h1 : 1 ≤ c1 := by omega
  have h2b : c2 ≤ 26 := by omega
  have hnp := sumCall_no_percent c1 c2 h1 h26 h2 h2b ds hds
  have e1 : sub1F ((sumCallData c1 c2 ds).length + 1) (sumCallData c1 c2 ds) =
      sumCallData c1 c2 ds :=
    sub1F_id _ _ (no_tryMatch1_of_no_percent hnp)
  have e2 : sub2F ((sumCallData c1 c2 ds).length + 1) (sumCallData c1 c2 ds) =
      sumCallData c1 c2 ds :=
    sub2F_id _ _ (no_tryMatch2_of_no_percent hnp)
  have e3 : sumSubF ((sumCallData c1 c2 ds).length + 1) (sumCallData c1 c2 ds) =
      some [] := by
    have hstep := sumSubF_step ((sumCallData c1 c2 ds).length) 'S' _
      (trySumMatch_sumCall c1 c2 h1 h26 h2 h2b ds hds)
      (sumRepl_reversed c1 c2 h1 h26 h2 hlt ds)
    rw [sumSubF_nil] at hstep
    exact hstep
  show (convertCore (sumCallData c1 c2 ds)).map String.mk = _
  rw [convertCore, e1, e2, e3]
  simp [replF_nil, sub5F_nil]

/-- Claim C3 (amended): the translator can raise — a `ValueError`
through the range-sum replacement lambda (see the C3 counterexample),
and an `OverflowError` through the comma-percent replacement's
int-to-float conversion when a digit group exceeds the double range
(roughly 1.8·10^308; this path is outside the model, whose theorems
never reach it).  An input matching none of the six transformation
patterns and containing no `$` is returned unchanged, and no
exception can occur on such input. -/
theorem c3_translator_behavior (s : String)
    (h : ∀ t ∈ s.data.tails, tryMatch1 t = none ∧ tryMatch2 t = none ∧
        trySumMatch t = none ∧ List.isPrefixOf "MIN".data t = false ∧
        List.isPrefixOf "MAX".data t = false ∧ tryMatch5 t = none)
    (hd : '$' ∉ s.data) :
    convert_to_js s = some s := by
  obtain ⟨ls⟩ := s
  have hs : ∀ t, t <:+ ls → tryMatch1 t = none ∧ tryMatch2 t = none ∧
      trySumMatch t = none ∧ List.isPrefixOf "MIN".data t = false ∧
      List.isPrefixOf "MAX".data t = false ∧ tryMatch5 t = none :=
    fun t ht => h t ((List.mem_tails _ _).mpr ht)
  have e1 : sub1F (ls.length + 1) ls = ls :=
    sub1F_id _ _ fun t ht => (hs t ht).1
  have e2 : sub2F (ls.length + 1) ls = ls :=
    sub2F_id _ _ fun t ht => (hs t ht).2.1
  have e3 : sumSubF (ls.length + 1) ls = some ls :=
    sumSubF_id _ _ fun t ht => (hs t ht).2.2.1
  have e4 : replF "MIN".data "Math.min".data (ls.length + 1) ls = ls :=
    replF_id _ _ _ _ fun t ht => (hs t ht).2.2.2.1
  have e5 : replF "MAX".data "Math.max".data (ls.length + 1) ls = ls :=
    replF_id _ _ _ _ fun t ht => (hs t ht).2.2.2.2.1
  have e6 : sub5F (ls.length + 1) ls = ls :=
    sub5F_id _ _ fun t ht => (hs t ht).2.2.2.2.2
  have e7 : ls.filter (fun c => !(c == '$')) = ls := by
    refine List.filter_eq_self.mpr ?_
    intro a ha
    have : (a == '$') = false := beq_eq_false_iff_ne.mpr fun he => hd (he ▸ ha)
    simp [this]
  show (convertCore ls).map String.mk = _
  rw [convertCore, e1, e2, e3]
  simp only [e4, e5, e6, e7]
  rfl

/-- Claim C3 counterexample: the translator raises `ValueError` on
`SUM(11:22)` (the range-sum pattern matches, and
`column_index_from_string("1")` raises). -/
theorem c3_raises_counterexample : convert_to_js "SUM(11:22)" = none := by rfl

/-- Witness: an input matching none of the six patterns passes
through unchanged. -/
theorem c3_behavior_witness : convert_to_js "A1+B2" = some "A1+B2" :=
  c3_translator_behavior "A1+B2" (by decide) (by decide)

/-- Witness for C4 at `SUM(B2:D2)`. -/
theorem c4_expansion_witness : convert_to_js "SUM(B2:D2)" = some "B2+C2+D2" := by
  have h := c4_range_sum_expansion 2 4 (by omega) (by omega) (by omega) ['2'] (by decide)
  have e1 : sumCallStr 2 4 ['2'] = "SUM(B2:D2)" := by rfl
  have e2 : String.mk (sumChainSpec 2 4 ['2']) = "B2+C2+D2" := by rfl
  rw [e1, e2] at h
  exact h

/-- Witness for C8 at `SUM(D2:B2)`. -/
theorem c8_reversed_witness : convert_to_js "SUM(D2:B2)" = some "" := by
  have h := c8_reversed_range_empty 4 2 (by omega) (by omega) (by omega) ['2'] (by decide)
  have e1 : sumCallStr 4 2 ['2'] = "SUM(D2:B2)" := by rfl
  rw [e1] at h
  exact h

/-- Claim C4 counterexample: the source reads only the first letter of
each captured reference (`match.group(...)[:1]`), so the in-scope
forward range `SUM(AA1:AB1)` (column 27 up to column 28) expands to
the single term `AA1` instead of the inclusive chain `AA1+AB1`. -/
theorem c4_multiletter_counterexample :
    column_index_from_string "AA".data = some 27 ∧
    column_index_from_string "AB".data = some 28 ∧
    convert_to_js "SUM(AA1:AB1)" = some "AA1" :=
  ⟨by decide, by decide, by rfl⟩

/-- Claim C8 counterexample: for `SUM(AD1:B1)` — a reversed range,
since column `B` (index 2) is strictly below column `AD` (index 30) —
the source compares only the first letters `A` and `B`, so the call
expands to the two junk terms `AD1+BD1` rather than to zero terms. -/
theorem c8_multiletter_counterexample :
    column_index_from_string "AD".data = some 30 ∧
    column_index_from_string "B".data = some 2 ∧
    convert_to_js "SUM(AD1:B1)" = some "AD1+BD1" :=
  ⟨by decide, by decide, by rfl⟩

/-! ## The comma-percent value (C7) -/

/-- Claim C7 (amended): for the comma-percent `10,5%` the translator
emits the literal `10.05/100`, whose exact value is
`(10 + 5/100)/100 = 0.1005` — it satisfies the claim's general formula
but not the claimed concrete value `0.105`. -/
theorem c7_comma_percent_value :
    convert_to_js "10,5%" = some "10.05/100" ∧
    (1005 : ℚ) / 10000 = ((10 : ℚ) + 5 / 100) / 100 :=
  ⟨by rfl, by norm_num⟩

/-- Claim C7 counterexample: the exact value of the emitted expression
is `0.1005`, while the claim asserts `0.105`; the claim's own instance
`(10 + 5/100)/100 = 0.105` is arithmetically false. -/
theorem c7_value_counterexample :
    convert_to_js "10,5%" = some "10.05/100" ∧
    ¬ ((10 : ℚ) + 5 / 100) / 100 = 105 / 1000 :=
  ⟨by rfl, by norm_num⟩

/-! ## Graph lemmas -/

theorem lookup_mem {β : Type} : ∀ {g : List (String × β)} {k : String} {v : β},
    g.lookup k = some v → (k, v) ∈ g
  | [], k, v, h => by cases h
  | (a, b) :: t, k, v, h => by
    simp only [List.lookup] at h
    cases hk : k == a with
    | true =>
      rw [hk] at h
      cases h
      have : k = a := eq_of_beq hk
      subst this
      exact List.mem_cons_self _ _
    | false =>
      rw [hk] at h
      exact List.mem_cons_of_mem _ (lookup_mem h)

theorem adj_mem_vals {g : Graph} {u v : String} (h : v ∈ adj g u) :
    v ∈ graphVals g := by
  unfold adj at h
  cases hl : g.lookup u with
  | none => rw [hl] at h; cases h
  | some vs =>
    rw [hl] at h
    exact List.mem_flatten.mpr
      ⟨vs, List.mem_map.mpr ⟨(u, vs), lookup_mem hl, rfl⟩, h⟩

theorem adj_cons (k : String) (vs : List String) (t : Graph) (u : String) :
    adj ((k, vs) :: t) u = if u == k then vs else adj t u := by
  cases hu : u == k <;> simp [adj, List.lookup, hu]

theorem eraseEdge_adj {e : String × String} :
    ∀ (g : Graph) (u v : String), v ∈ adj (eraseEdge g e) u → v ∈ adj g u
  | [], _, _, h => h
  | (k, vs) :: t, u, v, h => by
    simp only [eraseEdge] at h
    rw [adj_cons]
    split at h
    · rw [adj_cons] at h
      split at h
      next hu =>
        rw [if_pos hu]
        exact List.mem_of_mem_erase h
      next hu =>
        rw [if_neg hu]
        exact h
    · rw [adj_cons] at h
      split at h
      next hu =>
        rw [if_pos hu]
        exact h
      next hu =>
        rw [if_neg hu]
        exact eraseEdge_adj t u v h

theorem foldl_eraseEdge_adj : ∀ (ce : EdgeL) (g : Graph) (u v : String),
    v ∈ adj (ce.foldl eraseEdge g) u → v ∈ adj g u
  | [], _, _, _, h => h
  | e :: ce, g, u, v, h =>
    eraseEdge_adj g u v (foldl_eraseEdge_adj ce (eraseEdge g e) u v h)

/-- Claim C10: `detect_and_break_cycles` only removes edges — every
edge present after the call was present before it. -/
theorem c10_break_only_removes (g : Graph) (u v : String)
    (h : v ∈ adj (detect_and_break_cycles g) u) : v ∈ adj g u := by
  unfold detect_and_break_cycles at h
  exact foldl_eraseEdge_adj _ g u v h

/-- Witness for C10 on a one-edge graph. -/
theorem c10_witness :
    "B1" ∈ adj (detect_and_break_cycles [("A1", ["B1"])]) "A1" ∧
    "B1" ∈ adj [("A1", ["B1"])] "A1" :=
  ⟨by decide, c10_break_only_removes _ "A1" "B1" (by decide)⟩

/-- Claim C2 (code bug): after the cycle breaker runs on the graph
`A→{B}, C→{D}, D→{C,B}, B→{A,D}`, the two-cycle `B↔D` survives, and
the pipeline's sequencer `resolve_and_sort` then raises `ValueError`
instead of producing an order. -/
theorem c2_pipeline_raises :
    detect_and_break_cycles
        [("A", ["B"]), ("C", ["D"]), ("D", ["C", "B"]), ("B", ["A", "D"])] =
      [("A", []), ("C", []), ("D", ["B"]), ("B", ["D"])] ∧
    break_then_sort [("A", ["B"]), ("C", ["D"]), ("D", ["C", "B"]), ("B", ["A", "D"])]
      ["A", "B", "C", "D"] = SeqResult.valueError :=
  ⟨rfl, rfl⟩

/-! ## Sequencer lemmas -/

theorem resolveLoop_basic {r : String → RSt → Option (Bool × RSt)} (hr : StepOK r) :
    ∀ (ds : List String) (st : RSt) (b : Bool) (st2 : RSt),
      resolveLoop r ds st = some (b, st2) →
      (∀ x ∈ st.resolved, x ∈ st2.resolved) ∧
      (∃ δ, st2.sorted = st.sorted ++ δ) ∧
      ((∀ x, x ∈ st.sorted ↔ x ∈ st.resolved) →
        ∀ x, x ∈ st2.sorted ↔ x ∈ st2.resolved)
  | [], st, b, st2, h => by
    simp only [resolveLoop, Option.some.injEq, Prod.mk.injEq] at h
    obtain ⟨hb, hst⟩ := h
    subst hst
    exact ⟨fun x hx => hx, ⟨[], by simp⟩, fun hi => hi⟩
  | d :: ds, st, b, st2, h => by
    simp only [resolveLoop] at h
    cases hrec : r d st with
    | none => rw [hrec] at h; cases h
    | some p =>
      obtain ⟨bb, stm⟩ := p
      rw [hrec] at h
      cases bb with
      | false =>
        simp only [Option.some.injEq, Prod.mk.injEq] at h
        obtain ⟨hb, hst⟩ := h
        subst hst
        obtain ⟨m1, _, m3, m4⟩ := hr d st false stm hrec
        exact ⟨m1, m3, m4⟩
      | true =>
        obtain ⟨m1, _, m3, m4⟩ := hr d st true stm hrec
        obtain ⟨l1, l2, l3⟩ := resolveLoop_basic hr ds stm b st2 h
        refine ⟨fun x hx => l1 x (m1 x hx), ?_, fun hi => l3 (m4 hi)⟩
        obtain ⟨δ1, hδ1⟩ := m3
        obtain ⟨δ2, hδ2⟩ := l2
        exact ⟨δ1 ++ δ2, by rw [hδ2, hδ1, List.append_assoc]⟩

theorem resolve_basic (g : Graph) :
    ∀ fuel : Nat, StepOK (fun node st => resolve g fuel node st)
  | 0 => by
    intro node st b st2 h
    cases h
  | fuel + 1 => by
    intro node st b st2 h
    simp only [resolve] at h
    split at h
    next hres =>
      simp only [Option.some.injEq, Prod.mk.injEq] at h
      obtain ⟨hb, hst⟩ := h
      subst hst
      exact ⟨fun x hx => hx, fun _ => hres, ⟨[], by simp⟩, fun hi => hi⟩
    next hres =>
      split at h
      next hunr =>
        simp only [Option.some.injEq, Prod.mk.injEq] at h
        obtain ⟨hb, hst⟩ := h
        subst hst
        subst hb
        refine ⟨fun x hx => hx, ?_, ⟨[], by simp⟩, fun hi => hi⟩
        intro hb
        exact absurd hb (by simp)
      next hunr =>
        cases hloop : resolveLoop (fun d s => resolve g fuel d s) (adj g node)
            ⟨st.resolved, node :: st.unresolved, st.sorted⟩ with
        | none => rw [hloop] at h; cases h
        | some p =>
          obtain ⟨bb, stl⟩ := p
          rw [hloop] at h
          obtain ⟨l1, l2, l3⟩ := resolveLoop_basic (resolve_basic g fuel) _ _ _ _ hloop
          cases bb with
          | false =>
            simp only [Option.some.injEq, Prod.mk.injEq] at h
            obtain ⟨hb, hst⟩ := h
            subst hst
            subst hb
            refine ⟨fun x hx => l1 x hx, ?_, l2, l3⟩
            intro hb
            exact absurd hb (by simp)
          | true =>
            simp only [Option.some.injEq, Prod.mk.injEq] at h
            obtain ⟨hb, hst⟩ := h
            subst hst
            constructor
            · exact fun x hx => List.mem_cons_of_mem _ (l1 x hx)
            constructor
            · exact fun _ => List.mem_cons_self _ _
            constructor
            · obtain ⟨δ, hδ⟩ := l2
              exact ⟨δ ++ [node], by simp [hδ]⟩
            · intro hi x
              have hiff := l3 hi x
              simp only [List.mem_append, List.mem_cons, hiff,
                List.mem_singleton]
              tauto

theorem resolveCells_mem (g : Graph) (fuel : Nat) :
    ∀ (cs : List String) (st : RSt) (order : List String),
      resolveCells g fuel cs st = .ok order →
      (∀ x, x ∈ st.sorted ↔ x ∈ st.resolved) →
      (∀ c ∈ cs, c ∈ order) ∧ (∃ δ, order = st.sorted ++ δ)
  | [], st, order, h, hi => by
    simp only [resolveCells, SeqResult.ok.injEq] at h
    subst h
    refine ⟨?_, ⟨[], by simp⟩⟩
    intro c hc
    cases hc
  | c :: cs, st, order, h, hi => by
    simp only [resolveCells] at h
    cases hr : resolve g fuel c st with
    | none => rw [hr] at h; cases h
    | some p =>
      obtain ⟨b, st2⟩ := p
      rw [hr] at h
      cases b with
      | false => cases h
      | true =>
        obtain ⟨m1, m2, m3, m4⟩ := resolve_basic g fuel c st true st2 hr
        obtain ⟨ih1, δ2, ihδ⟩ := resolveCells_mem g fuel cs st2 order h (m4 hi)
        constructor
        · intro x hx
          rcases List.mem_cons.mp hx with rfl | hx
          · have hc2 : x ∈ st2.sorted := (m4 hi x).mpr (m2 rfl)
            rw [ihδ]
            exact List.mem_append_left _ hc2
          · exact ih1 x hx
        · obtain ⟨δ1, hδ1⟩ := m3
          exact ⟨δ1 ++ δ2, by rw [ihδ, hδ1, List.append_assoc]⟩

theorem resolve_and_sort_mem {g : Graph} {cells order : List String}
    (h : resolve_and_sort g cells = .ok order) : ∀ c ∈ cells, c ∈ order :=
  (resolveCells_mem g (seqFuel g cells) cells ⟨[], [], []⟩ order h (by simp)).1

theorem resolve_complete (g : Graph) (r : String → Nat)
    (hr : ∀ u v, v ∈ adj g u → r v < r u)
    (V : Finset String) (hV : ∀ u v, v ∈ adj g u → v ∈ V) :
    ∀ (fuel : Nat) (node : String) (st : RSt),
      node ∈ V →
      (∀ x ∈ st.resolved, x ∈ V) → (∀ x ∈ st.unresolved, x ∈ V) →
      (V \ (st.resolved.toFinset ∪ st.unresolved.toFinset)).card < fuel →
      (∀ s ∈ st.unresolved, r node < r s) →
      SeqInv g st →
      ∃ st2, resolve g fuel node st = some (true, st2) ∧
        st2.unresolved = st.unresolved ∧
        (∀ x ∈ st.resolved, x ∈ st2.resolved) ∧
        node ∈ st2.resolved ∧
        (∀ x ∈ st2.resolved, x ∈ V) ∧
        (∃ δ, st2.sorted = st.sorted ++ δ) ∧
        st.resolved.toFinset ∪ st.unresolved.toFinset ⊆
          st2.resolved.toFinset ∪ st2.unresolved.toFinset ∧
        SeqInv g st2 := by
  intro fuel
  induction fuel with
  | zero =>
    intro node st _ _ _ hcard _ _
    omega
  | succ fuel ih =>
    intro node st hnV hresV hunrV hcard hrank hinv
    by_cases hres : node ∈ st.resolved
    · refine ⟨st, ?_, rfl, fun x hx => hx, hres, hresV, ⟨[], by simp⟩,
        Finset.Subset.refl _, hinv⟩
      simp [resolve, hres]
    · by_cases hunr : node ∈ st.unresolved
      · exact absurd (hrank node hunr) (lt_irrefl _)
      · have hnodeS : node ∉ st.resolved.toFinset ∪ st.unresolved.toFinset := by
          simp [List.mem_toFinset, hres, hunr]
        have hnodeD : node ∈ V \ (st.resolved.toFinset ∪ st.unresolved.toFinset) :=
          Finset.mem_sdiff.mpr ⟨hnV, hnodeS⟩
        have hpos : 0 < (V \ (st.resolved.toFinset ∪ st.unresolved.toFinset)).card :=
          Finset.card_pos.mpr ⟨node, hnodeD⟩
        have hcard1 :
            (V \ (st.resolved.toFinset ∪ (node :: st.unresolved).toFinset)).card < fuel := by
          rw [List.toFinset_cons, Finset.union_insert, Finset.sdiff_insert,
            Finset.card_erase_of_mem hnodeD]
          omega
        have hloop : ∀ (ds : List String), (∀ d ∈ ds, d ∈ adj g node) →
            ∀ (stc : RSt),
              stc.unresolved = node :: st.unresolved →
              (∀ x ∈ stc.resolved, x ∈ V) →
              (V \ (stc.resolved.toFinset ∪ stc.unresolved.toFinset)).card < fuel →
              SeqInv g stc →
              ∃ stl, resolveLoop (fun d s => resolve g fuel d s) ds stc =
                  some (true, stl) ∧
                stl.unresolved = stc.unresolved ∧
                (∀ x ∈ stc.resolved, x ∈ stl.resolved) ∧
                (∀ d ∈ ds, d ∈ stl.resolved) ∧
                (∀ x ∈ stl.resolved, x ∈ V) ∧
                (∃ δ, stl.sorted = stc.sorted ++ δ) ∧
                stc.resolved.toFinset ∪ stc.unresolved.toFinset ⊆
                  stl.resolved.toFinset ∪ stl.unresolved.toFinset ∧
                (V \ (stl.resolved.toFinset ∪ stl.unresolved.toFinset)).card < fuel ∧
                SeqInv g stl := by
          intro ds
          induction ds with
          | nil =>
            intro _ stc hu hVc hcardc hinvc
            exact ⟨stc, rfl, rfl, fun x hx => hx,
              fun d hd => absurd hd (List.not_mem_nil d),
              hVc, ⟨[], by simp⟩, Finset.Subset.refl _, hcardc, hinvc⟩
          | cons d ds ihds =>
            intro hds stc hu hVc hcardc hinvc
            have hd : d ∈ adj g node := hds d (List.mem_cons_self _ _)
            have hdV : d ∈ V := hV node d hd
            have hunrVc : ∀ x ∈ stc.unresolved, x ∈ V := by
              intro x hx
              rw [hu] at hx
              rcases List.mem_cons.mp hx with rfl | hx
              · exact hnV
              · exact hunrV x hx
            have hdrank : ∀ s ∈ stc.unresolved, r d < r s := by
              intro s hs
              rw [hu] at hs
              rcases List.mem_cons.mp hs with rfl | hs
              · exact hr s d hd
              · exact lt_trans (hr node d hd) (hrank s hs)
            obtain ⟨st2, e2, u2, rm2, hm2, hV2, hδ2, hsub2, hinv2⟩ :=
              ih d stc hdV hVc hunrVc hcardc hdrank hinvc
            have hcard2 :
                (V \ (st2.resolved.toFinset ∪ st2.unresolved.toFinset)).card < fuel :=
              lt_of_le_of_lt
                (Finset.card_le_card
                  (Finset.sdiff_subset_sdiff (Finset.Subset.refl V) hsub2)) hcardc
            obtain ⟨stl, el, ul, rml, dml, hVl, hδl, hsubl, hcardl, hinvl⟩ :=
              ihds (fun x hx => hds x (List.mem_cons_of_mem _ hx)) st2
                (u2.trans hu) hV2 hcard2 hinv2
            refine ⟨stl, ?_, ?_, ?_, ?_, hVl, ?_, ?_, hcardl, hinvl⟩
            · simp only [resolveLoop, e2]
              exact el
            · exact ul.trans u2
            · exact fun x hx => rml x (rm2 x hx)
            · intro x hx
              rcases List.mem_cons.mp hx with rfl | hx
              · exact rml x hm2
              · exact dml x hx
            · obtain ⟨δ1, hδ1⟩ := hδ2
              obtain ⟨δ2, hδ2'⟩ := hδl
              exact ⟨δ1 ++ δ2, by rw [hδ2', hδ1, List.append_assoc]⟩
            · exact hsub2.trans hsubl
        have hinv1 : SeqInv g ⟨st.resolved, node :: st.unresolved, st.sorted⟩ := by
          constructor
          · exact List.nodup_cons.mpr ⟨hunr, hinv.unres_nodup⟩
          · intro x hx hmem
            rcases List.mem_cons.mp hmem with rfl | hmem
            · exact hres hx
            · exact hinv.disj x hx hmem
          · exact hinv.sorted_nodup
          · exact hinv.mem_iff
          · exact hinv.topo
        obtain ⟨stl, el, ul, rml, dml, hVl, hδl, hsubl, hcardl, hinvl⟩ :=
          hloop (adj g node) (fun d hd => hd)
            ⟨st.resolved, node :: st.unresolved, st.sorted⟩ rfl hresV hcard1 hinv1
        have hnsort : node ∉ stl.sorted := by
          intro hmem
          exact hinvl.disj node ((hinvl.mem_iff node).mp hmem)
            (by rw [ul]; exact List.mem_cons_self _ _)
        have huf : stl.unresolved.erase node = st.unresolved := by
          rw [ul]
          exact List.erase_cons_head node st.unresolved
        have ework : resolve g (fuel + 1) node st =
            some (true, ⟨node :: stl.resolved, stl.unresolved.erase node,
              stl.sorted ++ [node]⟩) := by
          simp only [resolve, if_neg hres, if_neg hunr]
          rw [el]
        refine ⟨⟨node :: stl.resolved, stl.unresolved.erase node,
          stl.sorted ++ [node]⟩, ework, huf, ?_, ?_, ?_, ?_, ?_, ?_⟩
        · exact fun x hx => List.mem_cons_of_mem _ (rml x hx)
        · exact List.mem_cons_self _ _
        · intro x hx
          rcases List.mem_cons.mp hx with rfl | hx
          · exact hnV
          · exact hVl x hx
        · obtain ⟨δ, hδ⟩ := hδl
          exact ⟨δ ++ [node], by simp [hδ]⟩
        · intro x hx
          rcases Finset.mem_union.mp hx with hx | hx
          · exact Finset.mem_union_left _ (List.mem_toFinset.mpr
              (List.mem_cons_of_mem _ (rml x (List.mem_toFinset.mp hx))))
          · exact Finset.mem_union_right _ (List.mem_toFinset.mpr
              (by rw [huf]; exact List.mem_toFinset.mp hx))
        · constructor
          · rw [show (⟨node :: stl.resolved, stl.unresolved.erase node,
              stl.sorted ++ [node]⟩ : RSt).unresolved = st.unresolved from huf]
            exact hinv.unres_nodup
          · intro x hx hmem
            rw [show (⟨node :: stl.resolved, stl.unresolved.erase node,
              stl.sorted ++ [node]⟩ : RSt).unresolved = st.unresolved from huf] at hmem
            rcases List.mem_cons.mp hx with rfl | hx
            · exact hunr hmem
            · exact hinvl.disj x hx (by rw [ul]; exact List.mem_cons_of_mem _ hmem)
          · rw [List.nodup_append]
            exact ⟨hinvl.sorted_nodup, List.nodup_singleton _, by simp [hnsort]⟩
          · intro x
            simp only [List.mem_append, List.mem_cons, List.mem_singleton,
              hinvl.mem_iff x]
            tauto
          · intro a ha b hb
            rcases List.mem_append.mp ha with ha | ha
            · obtain ⟨hbs, hlt⟩ := hinvl.topo a ha b hb
              refine ⟨List.mem_append_left _ hbs, ?_⟩
              rw [List.indexOf_append_of_mem hbs, List.indexOf_append_of_mem ha]
              exact hlt
            · have ha2 : a = node := List.mem_singleton.mp ha
              subst ha2
              have hbres : b ∈ stl.resolved := dml b hb
              have hbs : b ∈ stl.sorted := (hinvl.mem_iff b).mpr hbres
              refine ⟨List.mem_append_left _ hbs, ?_⟩
              rw [List.indexOf_append_of_mem hbs,
                List.indexOf_append_of_not_mem hnsort, List.indexOf_cons_self]
              have hblen := List.indexOf_lt_length.mpr hbs
              omega

theorem resolveCells_complete (g : Graph) (r : String → Nat)
    (hr : ∀ u v, v ∈ adj g u → r v < r u)
    (V : Finset String) (hV : ∀ u v, v ∈ adj g u → v ∈ V) (fuel : Nat) :
    ∀ (cs : List String) (st : RSt),
      (∀ c ∈ cs, c ∈ V) →
      (∀ x ∈ st.resolved, x ∈ V) →
      st.unresolved = [] →
      (V \ (st.resolved.toFinset ∪ st.unresolved.toFinset)).card < fuel →
      SeqInv g st →
      ∃ st2, resolveCells g fuel cs st = .ok st2.sorted ∧
        (∀ c ∈ cs, c ∈ st2.resolved) ∧
        (∀ x ∈ st.resolved, x ∈ st2.resolved) ∧ SeqInv g st2
  | [], st, _, _, _, _, hinv =>
    ⟨st, rfl, fun c hc => absurd hc (List.not_mem_nil c), fun x hx => hx, hinv⟩
  | c :: cs, st, hcs, hres, hune, hcard, hinv => by
    obtain ⟨st2, e2, u2, rm2, hm2, hV2, _, hsub2, hinv2⟩ :=
      resolve_complete g r hr V hV fuel c st (hcs c (List.mem_cons_self _ _)) hres
        (by rw [hune]; intro x hx; cases hx) hcard
        (by rw [hune]; intro s hs; cases hs) hinv
    have hu2 : st2.unresolved = [] := u2.trans hune
    have hcard2 :
        (V \ (st2.resolved.toFinset ∪ st2.unresolved.toFinset)).card < fuel :=
      lt_of_le_of_lt (Finset.card_le_card
        (Finset.sdiff_subset_sdiff (Finset.Subset.refl V) hsub2)) hcard
    obtain ⟨stf, ef, cf, monof, hinvf⟩ :=
      resolveCells_complete g r hr V hV fuel cs st2
        (fun x hx => hcs x (List.mem_cons_of_mem _ hx)) hV2 hu2 hcard2 hinv2
    refine ⟨stf, ?_, ?_, ?_, hinvf⟩
    · simp only [resolveCells, e2]
      exact ef
    · intro x hx
      rcases List.mem_cons.mp hx with rfl | hx
      · exact monof x hm2
      · exact cf x hx
    · exact fun x hx => monof x (rm2 x hx)

/-- Claim C1: on an acyclic graph (witnessed by a rank function that
strictly decreases along dependency edges) with a complete cell
mapping, `resolve_and_sort` succeeds and returns an order containing
every mapped CellId exactly once in which every retained dependency
precedes its dependent. -/
theorem c1_acyclic_sequencer (g : Graph) (cells : List String) (r : String → Nat)
    (hr : ∀ u v, v ∈ adj g u → r v < r u)
    (hcomp : ∀ p ∈ g, p.1 ∈ cells ∧ ∀ v ∈ p.2, v ∈ cells) :
    ∃ order, resolve_and_sort g cells = .ok order ∧
      (∀ c ∈ cells, order.count c = 1) ∧
      (∀ a b, b ∈ adj g a → b ∈ order ∧ a ∈ order ∧
        order.indexOf b < order.indexOf a) := by
  have hVadj : ∀ u v, v ∈ adj g u → v ∈ (cells ++ graphVals g).toFinset := by
    intro u v h
    exact List.mem_toFinset.mpr (List.mem_append_right _ (adj_mem_vals h))
  have hcells : ∀ c ∈ cells, c ∈ (cells ++ graphVals g).toFinset :=
    fun c hc => List.mem_toFinset.mpr (List.mem_append_left _ hc)
  have hfuel : ((cells ++ graphVals g).toFinset \
      (([] : List String).toFinset ∪ ([] : List String).toFinset)).card <
      seqFuel g cells := by
    have h1 := List.toFinset_card_le (cells ++ graphVals g)
    have h2 : ((cells ++ graphVals g).toFinset \
        (([] : List String).toFinset ∪ ([] : List String).toFinset)).card ≤
        (cells ++ graphVals g).toFinset.card :=
      Finset.card_le_card Finset.sdiff_subset
    simp only [List.length_append] at h1
    simp only [seqFuel]
    omega
  have hinv0 : SeqInv g ⟨[], [], []⟩ := by
    constructor
    · exact List.nodup_nil
    · intro x hx; cases hx
    · exact List.nodup_nil
    · intro x; constructor <;> (intro h; cases h)
    · intro a ha; cases ha
  obtain ⟨st2, hok, hmemc, _, hinv2⟩ :=
    resolveCells_complete g r hr _ hVadj (seqFuel g cells) cells ⟨[], [], []⟩
      hcells (by intro x hx; cases hx) rfl hfuel hinv0
  refine ⟨st2.sorted, hok, ?_, ?_⟩
  · intro c hc
    exact List.count_eq_one_of_mem hinv2.sorted_nodup
      ((hinv2.mem_iff c).mpr (hmemc c hc))
  · intro a b hb
    have ha : a ∈ cells := by
      unfold adj at hb
      cases hl : g.lookup a with
      | none => rw [hl] at hb; cases hb
      | some vs => exact (hcomp _ (lookup_mem hl)).1
    have has : a ∈ st2.sorted := (hinv2.mem_iff a).mpr (hmemc a ha)
    obtain ⟨hbs, hlt⟩ := hinv2.topo a has b hb
    exact ⟨hbs, has, hlt⟩

/-- Witness for C1 on the acyclic graph `B1 → A1`. -/
theorem c1_sequencer_witness :
    ∃ order, resolve_and_sort [("B1", ["A1"])] ["A1", "B1"] = .ok order ∧
      (∀ c ∈ ["A1", "B1"], order.count c = 1) ∧
      (∀ a b, b ∈ adj [("B1", ["A1"])] a →
        b ∈ order ∧ a ∈ order ∧ order.indexOf b < order.indexOf a) := by
  refine c1_acyclic_sequencer [("B1", ["A1"])] ["A1", "B1"]
    (fun s => if s = "B1" then 1 else 0) ?_ (by decide)
  intro u v h
  unfold adj at h
  cases hl : List.lookup u [("B1", ["A1"])] with
  | none => rw [hl] at h; cases h
  | some vs =>
    rw [hl] at h
    have hm := lookup_mem hl
    simp only [List.mem_singleton, Prod.mk.injEq] at hm
    obtain ⟨rfl, rfl⟩ := hm
    simp only [Option.getD_some, List.mem_singleton] at h
    subst h
    decide

/-! ## Extractor lemmas -/

theorem assocSet_keys {β : Type} :
    ∀ (l : List (String × β)) (k : String) (v : β) (x : String),
      x ∈ (assocSet l k v).map Prod.fst ↔ x ∈ l.map Prod.fst ∨ x = k
  | [], k, v, x => by simp [assocSet, eq_comm]
  | (a, b) :: t, k, v, x => by
    simp only [assocSet]
    split
    next hak =>
      have : a = k := eq_of_beq hak
      subst this
      simp only [List.map_cons, List.mem_cons]
      tauto
    next hak =>
      simp only [List.map_cons, List.mem_cons, assocSet_keys t k v x]
      tauto

theorem insertNew_mem (l : List String) (y x : String) :
    x ∈ insertNew l y ↔ x ∈ l ∨ x = y := by
  unfold insertNew
  split
  next h =>
    constructor
    · exact Or.inl
    · intro h2
      rcases h2 with h2 | rfl
      · exact h2
      · exact h
  next h =>
    simp [List.mem_append]

theorem foldl_insertNew_mem : ∀ (l acc : List String) (x : String),
    x ∈ l.foldl insertNew acc ↔ x ∈ acc ∨ x ∈ l
  | [], acc, x => by simp
  | y :: l, acc, x => by
    simp only [List.foldl_cons, foldl_insertNew_mem l (insertNew acc y) x,
      insertNew_mem, List.mem_cons]
    tauto

theorem dedupFirst_mem (l : List String) (x : String) :
    x ∈ dedupFirst l ↔ x ∈ l := by
  simp [dedupFirst, foldl_insertNew_mem]

theorem lookup_append_right {β : Type} :
    ∀ (l1 l2 : List (String × β)) (k : String),
      k ∉ l1.map Prod.fst → (l1 ++ l2).lookup k = l2.lookup k
  | [], l2, k, _ => rfl
  | (a, b) :: t, l2, k, h => by
    have hk : (k == a) = false := beq_eq_false_iff_ne.mpr
      (fun he => h (by simp [he]))
    simp only [List.cons_append, List.lookup, hk]
    exact lookup_append_right t l2 k (fun hm => h (by simp [hm]))

theorem lookup_map_self (f : String → String) :
    ∀ (l : List String) (k : String), k ∈ l →
      (l.map fun v => (v, f v)).lookup k = some (f k)
  | [], k, h => absurd h (List.not_mem_nil k)
  | a :: t, k, h => by
    by_cases he : k = a
    · subst he
      simp [List.lookup]
    · have hk : (k == a) = false := beq_eq_false_iff_ne.mpr he
      simp only [List.map_cons, List.lookup, hk]
      exact lookup_map_self f t k
        (by rcases List.mem_cons.mp h with h2 | h2; exact absurd h2 he; exact h2)

theorem processCell_keys {acc out : ExOut} {rc : Nat × Nat × CellV}
    (h : processCell acc rc = some out)
    (hi : ∀ x, x ∈ acc.cells.map Prod.fst ↔ x ∈ acc.defined) :
    ∀ x, x ∈ out.cells.map Prod.fst ↔ x ∈ out.defined := by
  obtain ⟨row, col, cv⟩ := rc
  cases cv with
  | num n =>
    simp only [processCell] at h
    split at h
    · cases h
    · simp only [Option.some.injEq] at h
      subst h
      intro x
      simp only [assocSet_keys, insertNew_mem, hi x]
  | str s =>
    simp only [processCell] at h
    split at h
    · cases h
    · split at h
      · simp only [Option.some.injEq] at h
        subst h
        exact hi
      · split at h
        · split at h
          · cases h
          · simp only [Option.some.injEq] at h
            subst h
            intro x
            simp only [assocSet_keys, insertNew_mem, hi x]
        · simp only [Option.some.injEq] at h
          subst h
          exact hi
  | blank =>
    simp only [processCell] at h
    split at h
    · cases h
    · simp only [Option.some.injEq] at h
      subst h
      exact hi

theorem extractRaw_keys :
    ∀ (l : List (Nat × Nat × CellV)) (acc out : ExOut),
      l.foldlM processCell acc = some out →
      (∀ x, x ∈ acc.cells.map Prod.fst ↔ x ∈ acc.defined) →
      (∀ x, x ∈ out.cells.map Prod.fst ↔ x ∈ out.defined)
  | [], acc, out, h, hi => by
    simp only [List.foldlM] at h
    cases h
    exact hi
  | rc :: l, acc, out, h, hi => by
    rw [List.foldlM_cons] at h
    cases hp : processCell acc rc with
    | none => rw [hp] at h; cases h
    | some acc2 =>
      rw [hp] at h
      exact extractRaw_keys l acc2 out h (processCell_keys hp hi)

/-- Every CellId referenced in the dependency graph has a declaration
among the keys of `all_cells` after the zero-default fill-in. -/
theorem extract_vals_sub_keys {sheet : List (List CellV)} {e : ExOut} {v : String}
    (he : extract_and_convert_all_cells sheet = some e)
    (hv : v ∈ graphVals e.graph) : v ∈ e.cells.map Prod.fst := by
  unfold extract_and_convert_all_cells at he
  cases hr : extractRaw sheet with
  | none => rw [hr] at he; cases he
  | some raw =>
    rw [hr] at he
    simp only [Option.map_some', Option.some.injEq] at he
    subst he
    have hkeys := extractRaw_keys _ _ _ hr (by intro x; simp)
    by_cases hdef : v ∈ raw.defined
    · have hkr : v ∈ raw.cells.map Prod.fst := (hkeys v).mpr hdef
      show v ∈ ((zeroFill raw).cells).map Prod.fst
      simp only [zeroFill, List.map_append]
      exact List.mem_append_left _ hkr
    · have hvU : v ∈ (dedupFirst (raw.cells.map Prod.fst ++ graphVals raw.graph)).filter
          (fun x => !(raw.defined.contains x)) := by
        rw [List.mem_filter]
        refine ⟨(dedupFirst_mem _ _).mpr (List.mem_append_right _ hv), ?_⟩
        simp only [List.contains, Bool.not_eq_true']
        cases helem : raw.defined.elem v with
        | false => rfl
        | true => exact absurd (List.elem_iff.mp helem) hdef
      show v ∈ ((zeroFill raw).cells).map Prod.fst
      simp only [zeroFill, List.map_append, List.map_map]
      refine List.mem_append_right _ ?_
      simpa using hvU

/-- Claim C9 (amended): every CellId appearing in a value set of the
DependencyGraph exists as a key of the `all_cells` mapping after the
extractor finishes (not necessarily as a key of the graph itself). -/
theorem c9_values_closed_in_cells (sheet : List (List CellV)) (e : ExOut) (v : String)
    (he : extract_and_convert_all_cells sheet = some e)
    (hv : v ∈ graphVals e.graph) : v ∈ e.cells.map Prod.fst :=
  extract_vals_sub_keys he hv

/-- Witness for the amended C9 on the sheet `A1=5, B1==A1`. -/
theorem c9_values_closed_witness :
    ∃ e, extract_and_convert_all_cells [[CellV.num 5, CellV.str "=A1"]] = some e ∧
      "A1" ∈ graphVals e.graph ∧ "A1" ∈ e.cells.map Prod.fst :=
  ⟨⟨[("A1", "var A1 = 5;"), ("B1", "var B1 = A1;")], [("B1", ["A1"])],
      [("B1", "=A1")], ["A1", "B1"]⟩, by decide, by decide,
    c9_values_closed_in_cells [[CellV.num 5, CellV.str "=A1"]] _ "A1"
      (by decide) (by decide)⟩

/-- Claim C9 counterexample: on the sheet `A1=5, B1==A1` the CellId
`A1` appears in a value set of the DependencyGraph but is not a key of
the DependencyGraph. -/
theorem c9_counterexample :
    ∃ e, extract_and_convert_all_cells [[CellV.num 5, CellV.str "=A1"]] = some e ∧
      "A1" ∈ graphVals e.graph ∧ "A1" ∉ e.graph.map Prod.fst :=
  ⟨⟨[("A1", "var A1 = 5;"), ("B1", "var B1 = A1;")], [("B1", ["A1"])],
      [("B1", "=A1")], ["A1", "B1"]⟩, by decide, by decide, by decide⟩

/-- Claim C5: a CellId referenced anywhere but never defined by a
sheet cell receives the synthetic `var v = 0;` declaration, and
whenever the pipeline's sequencing succeeds the order contains it. -/
theorem c5_zero_default (sheet : List (List CellV)) (e : ExOut) (v : String)
    (he : extract_and_convert_all_cells sheet = some e)
    (hv : v ∈ graphVals e.graph) (hnd : v ∉ e.defined) :
    e.cells.lookup v = some s!"var {v} = 0;" ∧
    ∀ order, resolve_and_sort (detect_and_break_cycles e.graph)
        (e.cells.map Prod.fst) = .ok order → v ∈ order := by
  constructor
  · unfold extract_and_convert_all_cells at he
    cases hr : extractRaw sheet with
    | none => rw [hr] at he; cases he
    | some raw =>
      rw [hr] at he
      simp only [Option.map_some', Option.some.injEq] at he
      subst he
      have hkeys := extractRaw_keys _ _ _ hr (by intro x; simp)
      have hnd2 : v ∉ raw.defined := hnd
      have hnotk : v ∉ raw.cells.map Prod.fst := fun hk => hnd2 ((hkeys v).mp hk)
      have hvU : v ∈ (dedupFirst (raw.cells.map Prod.fst ++ graphVals raw.graph)).filter
          (fun x => !(raw.defined.contains x)) := by
        rw [List.mem_filter]
        refine ⟨(dedupFirst_mem _ _).mpr (List.mem_append_right _ hv), ?_⟩
        simp only [List.contains, Bool.not_eq_true']
        cases helem : raw.defined.elem v with
        | false => rfl
        | true => exact absurd (List.elem_iff.mp helem) hnd2
      show ((zeroFill raw).cells).lookup v = some s!"var {v} = 0;"
      simp only [zeroFill]
      rw [lookup_append_right _ _ _ hnotk]
      exact lookup_map_self (fun u => s!"var {u} = 0;") _ v hvU
  · intro order hok
    exact resolve_and_sort_mem hok v (extract_vals_sub_keys he hv)

/-- Witness for C5 on the sheet whose only cell is `A1==Z9`. -/
theorem c5_zero_default_witness :
    ∃ e, extract_and_convert_all_cells [[CellV.str "=Z9"]] = some e ∧
      (e.cells.lookup "Z9" = some "var Z9 = 0;" ∧
        ∀ order, resolve_and_sort (detect_and_break_cycles e.graph)
          (e.cells.map Prod.fst) = .ok order → "Z9" ∈ order) :=
  ⟨⟨[("A1", "var A1 = Z9;"), ("Z9", "var Z9 = 0;")], [("A1", ["Z9"])],
      [("A1", "=Z9")], ["A1"]⟩, by decide,
    c5_zero_default [[CellV.str "=Z9"]] _ "Z9" (by decide) (by decide) (by decide)⟩

/-! ## The two-vertex cycle (C6) -/

/-- Claim C6 (amended): on the graph consisting exactly of the
two-cycle `a→b→a`, the cycle breaker removes both edges and the
pipeline's sequencer then emits both vertices exactly once. -/
theorem c6_isolated_two_cycle (a b : String) (hab : a ≠ b) :
    (b ∉ adj (detect_and_break_cycles [(a, [b]), (b, [a])]) a ∧
      a ∉ adj (detect_and_break_cycles [(a, [b]), (b, [a])]) b) ∧
    resolve_and_sort (detect_and_break_cycles [(a, [b]), (b, [a])]) [a, b] =
      .ok [a, b] ∧
    [a, b].count a = 1 ∧ [a, b].count b = 1 := by
  have hba : (b == a) = false := beq_eq_false_iff_ne.mpr (Ne.symm hab)
  have hab' : (a == b) = false := beq_eq_false_iff_ne.mpr hab
  have hba' : ¬b = a := fun h => hab h.symm
  have haa : (a == a) = true := beq_self_eq_true a
  have hbb : (b == b) = true := beq_self_eq_true b
  have hadja : adj [(a, [b]), (b, [a])] a = [b] := by
    simp [adj, List.lookup, haa]
  have hadjb : adj [(a, [b]), (b, [a])] b = [a] := by
    simp [adj, List.lookup, hba, hbb]
  have hdfsb : ∀ f, dfs [(a, [b]), (b, [a])] (f + 1) b [(a, Color.gray)] [] =
      some ([(a, Color.gray), (b, Color.gray)], [(b, a)], true) := by
    intro f
    simp [dfs, dfsLoop, hadjb, setColor, assocSet, getColor, List.lookup,
      hba, hab', haa, insertEdge]
  have hdfsa : ∀ f, dfs [(a, [b]), (b, [a])] (f + 1 + 1) a [] [] =
      some ([(a, Color.black), (b, Color.gray)], [(b, a), (a, b)], false) := by
    intro f
    show dfsLoop (fun n s c => dfs [(a, [b]), (b, [a])] (f + 1) n s c) a
        (adj [(a, [b]), (b, [a])] a) (setColor [] a Color.gray) [] =
      some ([(a, Color.black), (b, Color.gray)], [(b, a), (a, b)], false)
    rw [hadja]
    simp [dfsLoop, setColor, assocSet, getColor, List.lookup, hba, haa, hab',
      hdfsb f, insertEdge, Prod.ext_iff, hba']
  have hdetect : detect_and_break_cycles [(a, [b]), (b, [a])] = [(a, []), (b, [])] := by
    have hfuel : detectFuel [(a, [b]), (b, [a])] = 3 + 1 + 1 := rfl
    have hall : dfsAll [(a, [b]), (b, [a])] (graphKeys [(a, [b]), (b, [a])]) [] [] =
        ([(a, Color.black), (b, Color.gray)], [(b, a), (a, b)]) := by
      simp [dfsAll, graphKeys, getColor, List.lookup, hfuel, hdfsa 3, hba]
    simp only [detect_and_break_cycles, hall]
    simp [eraseEdge, hab', hba, haa, hbb, List.erase_cons_head]
  rw [hdetect]
  have hadja2 : adj [(a, ([] : List String)), (b, [])] a = [] := by
    simp [adj, List.lookup, haa]
  have hadjb2 : adj [(a, ([] : List String)), (b, [])] b = [] := by
    simp [adj, List.lookup, hba, hbb]
  refine ⟨⟨by simp [hadja2], by simp [hadjb2]⟩, ?_, ?_, ?_⟩
  · have hsf : seqFuel [(a, ([] : List String)), (b, [])] [a, b] = 2 + 1 := rfl
    simp only [resolve_and_sort, hsf]
    simp [resolveCells, resolve, resolveLoop, hadja2, hadjb2, hba', hab,
      List.erase_cons_head]
  · simp [List.count_cons, haa, hba]
  · simp [List.count_cons, hbb, hab']

/-- Claim C6 counterexample: a graph containing the isolated two-cycle
`E→F→E` (no other edges touch `E`/`F`) together with overlapping cycles
on `A,B,C,D`; the breaker does remove both `E`/`F` edges, but a
residual cycle `B↔D` survives elsewhere, so the pipeline's sequencer
raises `ValueError` and never emits `E` and `F`. -/
theorem c6_counterexample :
    (adj [("A", ["B"]), ("C", ["D"]), ("D", ["C", "B"]), ("B", ["A", "D"]),
        ("E", ["F"]), ("F", ["E"])] "E" = ["F"] ∧
      adj [("A", ["B"]), ("C", ["D"]), ("D", ["C", "B"]), ("B", ["A", "D"]),
        ("E", ["F"]), ("F", ["E"])] "F" = ["E"] ∧
      (∀ p ∈ [("A", ["B"]), ("C", ["D"]), ("D", ["C", "B"]), ("B", ["A", "D"]),
        ("E", ["F"]), ("F", ["E"])], p.1 ≠ "E" → p.1 ≠ "F" →
          "E" ∉ p.2 ∧ "F" ∉ p.2)) ∧
    resolve_and_sort
      (detect_and_break_cycles
        [("A", ["B"]), ("C", ["D"]), ("D", ["C", "B"]), ("B", ["A", "D"]),
          ("E", ["F"]), ("F", ["E"])])
      ["A", "B", "C", "D", "E", "F"] = SeqResult.valueError :=
  ⟨⟨by decide, by decide, by decide⟩, by decide⟩

/-- Witness for C6: the amended theorem at the concrete labels
`A` and `B`. -/
theorem c6_isolated_witness :
    ("B" ∉ adj (detect_and_break_cycles [("A", ["B"]), ("B", ["A"])]) "A" ∧
      "A" ∉ adj (detect_and_break_cycles [("A", ["B"]), ("B", ["A"])]) "B") ∧
    resolve_and_sort (detect_and_break_cycles [("A", ["B"]), ("B", ["A"])])
      ["A", "B"] = .ok ["A", "B"] ∧
    ["A", "B"].count "A" = 1 ∧ ["A", "B"].count "B" = 1 :=
  c6_isolated_two_cycle "A" "B" (by decide)

end Excel2JS
